import Mathlib

/-!
Verification of the dotenv parsing and expansion engine.

Strings are modelled as lists of characters (`Str`); the repository only
manipulates ASCII bytes, for which Go's byte indexing and Lean's character
lists agree.  Go maps are modelled as newest-first association lists: a map
assignment prepends, and reads take the first (newest) entry, which realises
Go's overwrite semantics at the level of the induced function.
-/

set_option autoImplicit false
set_option linter.unusedVariables false

deriving instance DecidableEq for Except

namespace Dotenv

/-- Characters of a Go string. -/
abbrev Str := List Char

/-- Location tracks the source file and line number of an environment
variable in the format "file:line". -/
abbrev Location := Str

/-- QuoteStyle represents the quoting style of a variable value. -/
inductive QuoteStyle where
  | Unquoted
  | Quoted
  | DoubleQuoted
deriving DecidableEq

/-- Provenance map: which variables were expanded and where they came from.
Newest-first association list (see the module docstring). -/
abbrev Prov := List (Str × Location)

/-- Variable represents a single environment variable with its metadata. -/
structure Variable where
  name : Str
  value : Str
  rawValue : Str
  location : Location
  quoted : QuoteStyle
  expanded : Prov
deriving DecidableEq

/-- LookupFn looks up a variable by name; Go's `(Variable, bool)` pair is an
`Option Variable`. -/
abbrev LookupFn := Str → Option Variable

/-- Reading a provenance map: first (newest) entry for the key. -/
def provGet (m : Prov) (k : Str) : Option Location :=
  (m.find? (fun p => decide (p.1 = k))).map Prod.snd

/-- Merging the provenance map `src` of a recursive expansion into `dst`
(Go: `for k, v := range src, dst[k] = v`): every entry of `src` is written
over `dst`, so in the newest-first representation `src` goes in front. -/
def mergeProv (dst src : Prov) : Prov :=
  src ++ dst

/-- findClosingBrace loop body: scanning from absolute index `i` at the given
brace depth.  Every `'{'` increments the depth and every `'}'` decrements it. -/
def findClosingBraceAux : Str → Nat → Nat → Option Nat
  | [], _, _ => none
  | c :: cs, i, depth =>
    if c = '{' then findClosingBraceAux cs (i + 1) (depth + 1)
    else if c = '}' then
      if depth = 1 then some i else findClosingBraceAux cs (i + 1) (depth - 1)
    else findClosingBraceAux cs (i + 1) depth

/-- findClosingBrace finds the index of the closing brace that matches the
opening brace at the given start position, accounting for nested braces. -/
def findClosingBrace (value : Str) (start : Nat) : Option Nat :=
  findClosingBraceAux (value.drop start) start 1

/-- findOperator loop body: a `"$\x7b"` digraph increments the depth (skipping
both characters), a `'}'` at positive depth decrements it, and the operator is
matched only at depth 0. -/
def findOperatorAux (op : Str) : Str → Nat → Nat → Option Nat
  | [], _, _ => none
  | '$' :: '{' :: cs, i, depth => findOperatorAux op cs (i + 2) (depth + 1)
  | c :: cs, i, depth =>
    if c = '}' ∧ 0 < depth then findOperatorAux op cs (i + 1) (depth - 1)
    else if depth = 0 then
      if op.isPrefixOf (c :: cs) then some i
      else findOperatorAux op cs (i + 1) depth
    else findOperatorAux op cs (i + 1) depth

/-- findOperator finds the first occurrence of the operator at the top level
(not inside nested braces). -/
def findOperator (content op : Str) : Option Nat :=
  findOperatorAux op content 0 0

/-- isVarNameChar returns true if the character is valid in a variable name. -/
def isVarNameChar (c : Char) : Bool :=
  ('A' ≤ c && c ≤ 'Z') || ('a' ≤ c && c ≤ 'z') || ('0' ≤ c && c ≤ '9') || c == '_'

/-- Error text used by the two required-variable operators when the
user-supplied message is empty (Go: "%s: required variable is not set"). -/
def requiredVariableMsg (varName errorMsg : Str) : Str :=
  if errorMsg = [] then varName ++ (": required variable is not set").data else errorMsg

/-- Operator classification and handling for one isolated braced span
(the if/else-if chain over `content` in Go `expandString`, lines 132-238):
the six operators are tested in fixed precedence order, each located only at
top nesting level by findOperator; `recur` performs the recursive
expandString call on default or replacement text.  Returns the text emitted
for the span together with the provenance entries the span contributes, in
newest-first order (an entry for the consulted variable, and the merged
provenance of the recursive call). -/
def expandBraceStep (lookup : LookupFn) (recur : Str → Except Str (Str × Prov))
    (content : Str) : Except Str (Str × Prov) :=
  match findOperator content [':', '?'] with
  | some k =>
    let varName := content.take k
    let errorMsg := content.drop (k + 2)
    match lookup varName with
    | some v =>
      if v.value = [] then .error (requiredVariableMsg varName errorMsg)
      else .ok (v.value, [(varName, v.location)])
    | none => .error (requiredVariableMsg varName errorMsg)
  | none =>
  match findOperator content [':', '-'] with
  | some k =>
    let varName := content.take k
    let defaultValue := content.drop (k + 2)
    match lookup varName with
    | some v =>
      if v.value = [] then
        match recur defaultValue with
        | .error e => .error e
        | .ok (s, m) => .ok (s, m)
      else .ok (v.value, [(varName, v.location)])
    | none =>
      match recur defaultValue with
      | .error e => .error e
      | .ok (s, m) => .ok (s, m)
  | none =>
  match findOperator content [':', '+'] with
  | some k =>
    let varName := content.take k
    let replacement := content.drop (k + 2)
    match lookup varName with
    | some v =>
      if v.value = [] then .ok ([], [])
      else
        match recur replacement with
        | .error e => .error e
        | .ok (s, m) => .ok (s, mergeProv [(varName, v.location)] m)
    | none => .ok ([], [])
  | none =>
  match findOperator content ['?'] with
  | some k =>
    let varName := content.take k
    let errorMsg := content.drop (k + 1)
    match lookup varName with
    | some v => .ok (v.value, [(varName, v.location)])
    | none => .error (requiredVariableMsg varName errorMsg)
  | none =>
  match findOperator content ['-'] with
  | some k =>
    let varName := content.take k
    let defaultValue := content.drop (k + 1)
    match lookup varName with
    | some v => .ok (v.value, [(varName, v.location)])
    | none =>
      match recur defaultValue with
      | .error e => .error e
      | .ok (s, m) => .ok (s, m)
  | none =>
  match findOperator content ['+'] with
  | some k =>
    let varName := content.take k
    let replacement := content.drop (k + 1)
    match lookup varName with
    | some v =>
      match recur replacement with
      | .error e => .error e
      | .ok (s, m) => .ok (s, mergeProv [(varName, v.location)] m)
    | none => .ok ([], [])
  | none =>
    match lookup content with
    | some v => .ok (v.value, [(content, v.location)])
    | none => .ok ([], [])

/-- expandString expands variable references in a string value, made
structural with explicit fuel; the wrapper `expandString` passes the length of
the value, and since every recursive call consumes a strictly shorter list the
fuel is never exhausted on the wrapper's calls. -/
def expandStringF (lookup : LookupFn) (fuel : Nat) (value : Str) :
    Except Str (Str × Prov) :=
  match fuel with
  | 0 => .ok ([], [])
  | fuel + 1 =>
    match value with
    | [] => .ok ([], [])
    | '\\' :: '$' :: rest =>
      match expandStringF lookup fuel rest with
      | .error e => .error e
      | .ok (s, m) => .ok ('$' :: s, m)
    | '$' :: '{' :: rest =>
      match findClosingBrace ('$' :: '{' :: rest) 2 with
      | none =>
        match expandStringF lookup fuel ('{' :: rest) with
        | .error e => .error e
        | .ok (s, m) => .ok ('$' :: s, m)
      | some endIdx =>
        match expandBraceStep lookup (expandStringF lookup fuel) (rest.take (endIdx - 2)) with
        | .error e => .error e
        | .ok (emit, mLocal) =>
          match expandStringF lookup fuel (rest.drop (endIdx - 1)) with
          | .error e => .error e
          | .ok (s, m) => .ok (emit ++ s, mergeProv mLocal m)
    | '$' :: c :: rest =>
      if isVarNameChar c then
        match expandStringF lookup fuel ((c :: rest).dropWhile isVarNameChar) with
        | .error e => .error e
        | .ok (s, m) =>
          match lookup ((c :: rest).takeWhile isVarNameChar) with
          | some v =>
            .ok (v.value ++ s, mergeProv [((c :: rest).takeWhile isVarNameChar, v.location)] m)
          | none => .ok (s, m)
      else
        match expandStringF lookup fuel (c :: rest) with
        | .error e => .error e
        | .ok (s, m) => .ok ('$' :: s, m)
    | c :: rest =>
      match expandStringF lookup fuel rest with
      | .error e => .error e
      | .ok (s, m) => .ok (c :: s, m)

/-- expandString expands variable references in a string value
(Go `expandString`). -/
def expandString (value : Str) (lookup : LookupFn) : Except Str (Str × Prov) :=
  expandStringF lookup value.length value

/-- expandValue replaces references in the value (Go `Variable.expandValue`);
the Go method mutates the receiver, modelled by returning the updated record. -/
def Variable.expandValue (v : Variable) (lookup : LookupFn) : Except Str Variable :=
  match expandString v.rawValue lookup with
  | .error e => .error e
  | .ok (val, exp) => .ok { v with value := val, expanded := exp }

/-- Table of already-processed variables (Go `map[string]Variable`),
newest-first association list. -/
abbrev VarMap := List (Str × Variable)

/-- Reading the variable table. -/
def varGet (m : VarMap) (k : Str) : Option Variable :=
  (m.find? (fun p => decide (p.1 = k))).map Prod.snd

/-- Writing the variable table (overwrite = prepend in newest-first form). -/
def varInsert (m : VarMap) (k : Str) (v : Variable) : VarMap :=
  (k, v) :: m

/-- expand processes variable expansion across the file in declaration order
(Go `EnvFile.expand`): single-quoted variables copy RawValue to Value, all
others are expanded against the table of previously processed variables. -/
def expandVars : List Variable → VarMap → Except Str (List Variable)
  | [], _ => .ok []
  | v :: rest, vars =>
    if v.quoted = QuoteStyle.Quoted then
      let v' := { v with value := v.rawValue }
      match expandVars rest (varInsert vars v'.name v') with
      | .error e => .error e
      | .ok vs => .ok (v' :: vs)
    else
      match v.expandValue (fun name => varGet vars name) with
      | .error e => .error e
      | .ok v' =>
        match expandVars rest (varInsert vars v'.name v') with
        | .error e => .error e
        | .ok vs => .ok (v' :: vs)

/-- EnvFile represents a parsed .env file containing a list of variables and
the "already expanded" flag. -/
structure EnvFile where
  Variables : List Variable
  expanded : Bool
deriving DecidableEq

/-- Result map of `Resolve` (Go `map[string]string`), newest-first. -/
abbrev EnvMap := List (Str × Str)

/-- Reading the result map. -/
def envGet (m : EnvMap) (k : Str) : Option Str :=
  (m.find? (fun p => decide (p.1 = k))).map Prod.snd

/-- Building the name-to-value result map in declaration order; later
declarations overwrite earlier ones. -/
def mkEnvMap (vars : List Variable) : EnvMap :=
  vars.foldl (fun acc v => (v.name, v.value) :: acc) []

/-- Resolve performs variable expansion and returns the environment variables
as a map (Go `EnvFile.Resolve`); the mutation of the receiver is modelled by
also returning the updated file. -/
def Resolve (e : EnvFile) : Except Str (EnvMap × EnvFile) :=
  if e.expanded then .ok (mkEnvMap e.Variables, e)
  else
    match expandVars e.Variables [] with
    | .error m => .error m
    | .ok vs => .ok (mkEnvMap vs, { Variables := vs, expanded := true })

/-- Lexicographic byte-wise string comparison (Go `<` on strings; the inputs
are ASCII, for which code-point order equals byte order). -/
def strLt : Str → Str → Bool
  | [], [] => false
  | [], _ :: _ => true
  | _ :: _, [] => false
  | a :: as, b :: bs => if a < b then true else if b < a then false else strLt as bs

/-- Insert into an ascending list of strings. -/
def insertStr (x : Str) : List Str → List Str
  | [] => [x]
  | y :: ys => if strLt x y then x :: y :: ys else y :: insertStr x ys

/-- Ascending sort of variable names (Go `sort.Strings`); the sorted keys are
distinct, so any correct sort produces this list. -/
def sortStrings (l : List Str) : List Str :=
  l.foldr insertStr []

/-- Linear scan for the variable with the given name, stopping at the first
match (the search loop of Go `EnvFile.Explain`). -/
def explainFind (name : Str) : List Variable → Option Variable
  | [] => none
  | v :: rest => if v.name = name then some v else explainFind name rest

/-- Explain returns a detailed explanation of how a variable was set
(Go `EnvFile.Explain`). -/
def Explain (e : EnvFile) (name : Str) : Str :=
  match explainFind name e.Variables with
  | none => ("Variable not found").data
  | some v =>
    let explanation := ("Variable: ").data ++ v.name ++ ['\n']
      ++ ("Location: ").data ++ v.location ++ ['\n']
      ++ ("Raw Value: ").data ++ v.rawValue ++ ['\n']
      ++ ("Final Value: ").data ++ v.value ++ ['\n']
    if 0 < v.expanded.length then
      let varMap := mkEnvMap e.Variables
      let varNames := sortStrings (v.expanded.map Prod.fst).dedup
      explanation ++ ("Expanded from:\n").data
        ++ (varNames.map (fun n =>
              ("  - ").data ++ n ++ ['='] ++ ((envGet varMap n).getD [])
                ++ (" at ").data ++ ((provGet v.expanded n).getD []) ++ ['\n'])).flatten
    else explanation

/-- Whitespace as trimmed by Go `strings.TrimSpace` (ASCII subset). -/
def isSpaceChar (c : Char) : Bool :=
  c = ' ' || c = '\t' || c = '\n' || c = '\r' || c = '\x0b' || c = '\x0c'

/-- TrimSpace removes leading and trailing whitespace. -/
def trimSpace (l : Str) : Str :=
  ((l.dropWhile isSpaceChar).reverse.dropWhile isSpaceChar).reverse

/-- Index of the first occurrence of a character (Go `strings.Index`);
`none` models Go's -1. -/
def idxOf (c : Char) : Str → Option Nat
  | [] => none
  | x :: xs => if x = c then some 0 else (idxOf c xs).map (· + 1)

/-- unescapeDoubleQuoted processes escape sequences in a double-quoted string
(Go `unescapeDoubleQuoted`): recognized escapes are replaced, an unknown
escape keeps the backslash literal.  In the unknown-escape branch Go writes
the backslash and re-examines the following character in the next loop
iteration; that character is not a backslash there (a double backslash is a
recognized escape), so the next iteration emits it verbatim, and the branch
is modelled by emitting both characters at once. -/
def unescapeDoubleQuoted : Str → Str
  | [] => []
  | '\\' :: rest =>
    match rest with
    | [] => ['\\']
    | c :: rest2 =>
      if c = 'n' then '\n' :: unescapeDoubleQuoted rest2
      else if c = 't' then '\t' :: unescapeDoubleQuoted rest2
      else if c = 'r' then '\r' :: unescapeDoubleQuoted rest2
      else if c = '\\' then '\\' :: unescapeDoubleQuoted rest2
      else if c = '"' then '"' :: unescapeDoubleQuoted rest2
      else '\\' :: c :: unescapeDoubleQuoted rest2
  | c :: rest => c :: unescapeDoubleQuoted rest

/-- Scan for an unescaped closing quote (the closing-quote loops of Go
`Parse`): a double quote immediately preceded by a backslash does not close;
`prev` is the previous character (`none` at the start of a physical line,
where Go's `i > 0` guard makes a leading quote close unconditionally). -/
def scanClosingQuoteAux (qc : Char) : Str → Option Char → Nat → Option Nat
  | [], _, _ => none
  | c :: cs, prev, i =>
    if c == qc && !(qc == '"' && prev == some '\\') then some i
    else scanClosingQuoteAux qc cs (some c) (i + 1)

/-- Consume continuation lines of an unterminated quoted value (the inner
`scanner.Scan` loop of Go `Parse`): each consumed line increments the line
counter and is joined with a newline; the loop stops after the first line
containing an unescaped closing quote, or at end of input.  Returns the
joined text, the remaining lines and the new line counter. -/
def consumeMultiline (qc : Char) : List Str → Nat → Str → Str × List Str × Nat
  | [], n, acc => (acc, [], n)
  | l :: ls, n, acc =>
    let acc2 := acc ++ '\n' :: l
    match scanClosingQuoteAux qc l none 0 with
    | some _ => (acc2, ls, n + 1)
    | none => consumeMultiline qc ls (n + 1) acc2

/-- Characters allowed in a variable name by the parser. -/
def isValidNameChar (c : Char) : Bool :=
  ('A' ≤ c && c ≤ 'Z') || ('a' ≤ c && c ≤ 'z') || ('0' ≤ c && c ≤ '9')
    || c == '_' || c == '.' || c == '-'

/-- isValidVariableName returns true if the name is nonempty, does not start
with a digit, and every character is in [A-Za-z0-9_.-] (Go
`isValidVariableName`). -/
def isValidVariableName : Str → Bool
  | [] => false
  | c :: cs => !('0' ≤ c && c ≤ '9') && (c :: cs).all isValidNameChar

/-- Decimal rendering of the line number. -/
def natStr (n : Nat) : Str :=
  (Nat.repr n).data

/-- Structured parse errors; Go formats these as
"line %d: no separator found in line: %s", "line %d: invalid variable name
%q" and "line %d %q has an unset variable", so each error carries its 1-based
line number and the offending text. -/
inductive ParseErr where
  | noSeparator (line : Nat) (text : Str)
  | invalidName (line : Nat) (name : Str)
  | exportUnset (line : Nat) (name : Str)
deriving DecidableEq

/-- Parse loop over the physical lines (Go `Parse`), made structural with
fuel; every step consumes at least the head line, so `Parse` supplies enough
fuel.  `n` is the number of physical lines already consumed and
`definedVars` the names declared so far. -/
def parseEnvAuxF : Nat → List Str → Nat → List Str → Except ParseErr (List Variable)
  | 0, _, _, _ => .ok []
  | _+1, [], _, _ => .ok []
  | fuel+1, l :: ls, n, definedVars =>
    let lineNumber := n + 1
    if l.isEmpty || (("#").data.isPrefixOf l) then parseEnvAuxF fuel ls lineNumber definedVars
    else
      let isExportLine := ("export ").data.isPrefixOf l
      let line := if isExportLine then l.drop 7 else l
      let sep? : Option Nat :=
        match idxOf '=' line, idxOf ':' line with
        | none, none => none
        | none, some c => some c
        | some e, none => some e
        | some e, some c => some (if e < c then e else c)
      match sep? with
      | none =>
        if isExportLine then
          let varName := trimSpace line
          if varName ∈ definedVars then parseEnvAuxF fuel ls lineNumber definedVars
          else .error (.exportUnset lineNumber varName)
        else .error (.noSeparator lineNumber l)
      | some separatorIdx =>
        let name := trimSpace (line.take separatorIdx)
        let value0 := trimSpace (line.drop (separatorIdx + 1))
        if !isValidVariableName name then .error (.invalidName lineNumber name)
        else
          let value1 :=
            match value0 with
            | [] => value0
            | c :: _ =>
              if c ≠ '"' ∧ c ≠ '\'' then
                match idxOf '#' value0 with
                | some commentIdx => trimSpace (value0.take commentIdx)
                | none => value0
              else value0
          let step :=
            match value1 with
            | [] => (value1, ls, lineNumber)
            | q :: tail =>
              if q = '"' ∨ q = '\'' then
                match scanClosingQuoteAux q tail (some q) 1 with
                | some _ => (value1, ls, lineNumber)
                | none => consumeMultiline q ls lineNumber value1
              else (value1, ls, lineNumber)
          let value2 := step.1
          let rest2 := step.2.1
          let lineNumber2 := step.2.2
          let quoteValue :=
            if 2 ≤ value2.length ∧ value2.head? = some '"' ∧ value2.getLast? = some '"' then
              (QuoteStyle.DoubleQuoted, unescapeDoubleQuoted (value2.drop 1).dropLast)
            else if 2 ≤ value2.length ∧ value2.head? = some '\'' ∧ value2.getLast? = some '\'' then
              (QuoteStyle.Quoted, (value2.drop 1).dropLast)
            else (QuoteStyle.Unquoted, value2)
          let parsedVar : Variable :=
            { name := name, value := [], rawValue := quoteValue.2,
              location := ':' :: natStr lineNumber2, quoted := quoteValue.1,
              expanded := [] }
          match parseEnvAuxF fuel rest2 lineNumber2 (name :: definedVars) with
          | .error e => .error e
          | .ok vs => .ok (parsedVar :: vs)

/-- Parse reads an .env file, given as its list of physical lines, and
returns a parsed EnvFile (Go `Parse`; the context-cancellation poll has no
behavioural content in a sequential model). -/
def Parse (lines : List Str) : Except ParseErr EnvFile :=
  match parseEnvAuxF lines.length lines 0 [] with
  | .error e => .error e
  | .ok vs => .ok { Variables := vs, expanded := false }

/-- PrioritizedLookup associates a lookup function with a priority value. -/
structure PrioritizedLookup where
  priority : Int
  lookup : LookupFn

/-- WithPriority pairs a lookup function with a priority. -/
def WithPriority (lk : LookupFn) (priority : Int) : PrioritizedLookup :=
  { priority := priority, lookup := lk }

/-- Sorting step of Go `NewCompositeLookup`: `sort.Slice` with the comparator
`lookups[i].Priority > lookups[j].Priority`.  On slices below its small-array
threshold (which covers every composite built by this repository) `sort.Slice`
performs an insertion sort, which coincides with this stable insertion sort;
for longer slices Go does not guarantee stability. -/
def sortSliceByPriority (lookups : List PrioritizedLookup) : List PrioritizedLookup :=
  List.insertionSort (fun a b => b.priority ≤ a.priority) lookups

/-- CompositeLookup manages multiple LookupFn with explicit priorities. -/
structure CompositeLookup where
  lookups : List PrioritizedLookup

/-- NewCompositeLookup sorts a copy of the given prioritized lookups by
descending priority, fixing the order once at construction. -/
def NewCompositeLookup (lookups : List PrioritizedLookup) : CompositeLookup :=
  { lookups := sortSliceByPriority lookups }

/-- Query loop of Go `CompositeLookup.Lookup`: try each source in order and
return the first hit. -/
def lookupFirst : List PrioritizedLookup → Str → Option Variable
  | [], _ => none
  | pl :: rest, name =>
    match pl.lookup name with
    | some v => some v
    | none => lookupFirst rest name

/-- Lookup implements the LookupFn signature by trying each lookup function
in priority order. -/
def CompositeLookup.Lookup (c : CompositeLookup) (name : Str) : Option Variable :=
  lookupFirst c.lookups name

/-- Modelled from the spec's words, for comparison with `findClosingBrace`
(claim C2): a closing-brace scan in which only a `"$\x7b"` digraph increases
the depth and a plain `'{'` is not special. -/
def findClosingBraceSpecAux : Str → Nat → Nat → Option Nat
  | [], _, _ => none
  | '$' :: '{' :: cs, i, depth => findClosingBraceSpecAux cs (i + 2) (depth + 1)
  | c :: cs, i, depth =>
    if c = '}' then
      if depth = 1 then some i else findClosingBraceSpecAux cs (i + 1) (depth - 1)
    else findClosingBraceSpecAux cs (i + 1) depth

/-- Modelled from the spec's words (claim C2): matching brace search counting
only nested `$\x7b` openings. -/
def findClosingBraceSpecNested (value : Str) (start : Nat) : Option Nat :=
  findClosingBraceSpecAux (value.drop start) start 1

/-- Modelled from the spec's words (claim C6): the name pattern
[A-Za-z_][A-Za-z0-9_.-]* stated by the spec. -/
def specNamePattern : Str → Bool
  | [] => false
  | c :: cs =>
    (('A' ≤ c && c ≤ 'Z') || ('a' ≤ c && c ≤ 'z') || c == '_') && cs.all isValidNameChar

/-- Name pattern actually enforced by the parser, in regex form (claim C6,
amended): [A-Za-z_.-][A-Za-z0-9_.-]*, that is, also a leading dot or hyphen
is accepted, only a leading digit is rejected. -/
def amendedNamePattern : Str → Bool
  | [] => false
  | c :: cs =>
    (('A' ≤ c && c ≤ 'Z') || ('a' ≤ c && c ≤ 'z') || c == '_' || c == '.' || c == '-')
      && cs.all isValidNameChar

/-- Agreement of a provenance map with a lookup: every recorded entry stores
exactly the location of the variable the lookup returns for that name
(claim C9). -/
def provAgrees (lookup : LookupFn) (m : Prov) : Prop :=
  ∀ p ∈ m, ∃ v, lookup p.1 = some v ∧ p.2 = v.location

/-- Modelled from the spec's words (claim C9): the union in which a later
merge does not overwrite a key already present — entries of `src` are added
only for keys absent from `dst`. -/
def provMergeKeep (dst src : Prov) : Prov :=
  src.filter (fun p => (provGet dst p.1).isNone) ++ dst

/-- Abbreviation for writing concrete Variable records in the theorems. -/
def mkVar (n v r loc : String) (q : QuoteStyle) (exp : Prov) : Variable :=
  { name := n.data, value := v.data, rawValue := r.data, location := loc.data,
    quoted := q, expanded := exp }

/-- Abbreviation for writing concrete EnvFile records in the theorems. -/
def mkFile (vs : List Variable) (b : Bool) : EnvFile :=
  { Variables := vs, expanded := b }

/-- Claim C4: Resolve is idempotent after success.  If a first call returned
`.ok (m, e')` then Resolve on the resulting file returns the very same map
and file: the "already expanded" flag short-circuits the second call, so
expansion is not re-invoked and every Variable (in particular every
provenance Location) is returned unchanged. -/
theorem resolve_idempotent (e : EnvFile) (m : EnvMap) (e' : EnvFile)
    (h : Resolve e = .ok (m, e')) : Resolve e' = .ok (m, e') := by
  unfold Resolve at h ⊢
  by_cases he : e.expanded = true
  · simp only [he, if_true] at h
    cases h
    simp [he]
  · simp only [he, if_false] at h
    cases hex : expandVars e.Variables [] with
    | error msg => rw [hex] at h; cases h
    | ok vs =>
      rw [hex] at h
      cases h
      simp

/-- Witness for claim C4 at a concrete one-variable file. -/
theorem resolve_idempotent_witness :
    Resolve (mkFile [mkVar ("A") ("1") ("1") (":1") QuoteStyle.Unquoted []] true) =
      .ok ([(("A").data, ("1").data)],
        mkFile [mkVar ("A") ("1") ("1") (":1") QuoteStyle.Unquoted []] true) :=
  resolve_idempotent
    (mkFile [mkVar ("A") ("") ("1") (":1") QuoteStyle.Unquoted []] false)
    _ _ (by decide)

/-- Claim C5 (code bug): on the two-line declaration FOO="a ... b", Parse
produces a record whose Value is empty (not equal to RawValue "a\nb") and
whose Location is ":2", the last physical line of the declaration rather
than the first.  The claim and the spec ("set Value = RawValue, Location =
source:line-of-first-physical-line") state the clear intent — the explain
tests print a populated Final Value straight after Parse — but the code
omits the Value field from the composite literal (Go zero value) and formats
the Location only after the continuation-line loop has advanced the line
counter. -/
theorem parse_value_location_divergence :
    Parse [("FOO=\"a").data, ("b\"").data] =
      .ok (mkFile [mkVar ("FOO") ("") ("a\nb") (":2") QuoteStyle.DoubleQuoted []] false) := by
  decide

/-- Counterexample for claim C7: a line whose first non-space character is
'#' but which starts with whitespace is not skipped; it falls through to
separator detection and Parse fails with a no-separator error. -/
theorem parse_indented_comment_errors :
    Parse [("  #c").data] = .error (.noSeparator 1 ("  #c").data) := by decide

/-- Claim C7 (amended): Parse skips a physical line, producing no record and
no error, exactly when the line is empty or its first character is '#'
(leading whitespace before the '#' is not allowed); the scan continues with
the next line and the line counter advanced. -/
theorem parse_skips_hash_and_empty (fuel n : Nat) (l : Str) (ls : List Str)
    (defined : List Str) (h : l = [] ∨ l.head? = some '#') :
    parseEnvAuxF (fuel + 1) (l :: ls) n defined = parseEnvAuxF fuel ls (n + 1) defined := by
  rcases h with h | h
  · subst h
    simp [parseEnvAuxF]
  · cases l with
    | nil => simp at h
    | cons c cs =>
      simp only [List.head?_cons, Option.some.injEq] at h
      subst h
      simp [parseEnvAuxF, List.isPrefixOf, String.data]

/-- Witness for the amended claim C7 at a concrete comment line. -/
theorem parse_skips_hash_and_empty_witness :
    parseEnvAuxF 1 [("#c").data] 0 [] = parseEnvAuxF 0 [] 1 [] :=
  parse_skips_hash_and_empty 0 0 (("#c").data) [] [] (Or.inr (by decide))

/-- Counterexample for claim C6: the name ".FOO" does not match the claimed
pattern [A-Za-z_][A-Za-z0-9_.-]*, yet the parser accepts it (only a leading
digit is rejected), so "accepted iff the pattern matches" is false. -/
theorem name_leading_dot_accepted :
    isValidVariableName ((".FOO").data) = true ∧
    specNamePattern ((".FOO").data) = false ∧
    Parse [(".FOO=1").data] =
      .ok (mkFile [mkVar (".FOO") ("") ("1") (":1") QuoteStyle.Unquoted []] false) := by
  decide

/-- Counterexample for claim C2: in the input value containing a bare brace,
the code's matching close brace is at index 8 (every brace counts toward the
depth), not at index 6, the first close brace that balances only the
dollar-brace openings as the claim states; consequently the whole expansion
treats "\x7ba\x7dX" as the default text. -/
theorem closing_brace_counts_plain_braces :
    findClosingBrace (("$\x7bV-\x7ba\x7dX\x7d").data) 2 = some 8 ∧
    findClosingBraceSpecNested (("$\x7bV-\x7ba\x7dX\x7d").data) 2 = some 6 ∧
    expandString (("$\x7bV-\x7ba\x7dX\x7d").data) (fun _ => none) =
      .ok (("\x7ba\x7dX").data, []) := by decide

theorem foldl_pair_eq_reverse_map (vars : List Variable) (acc : EnvMap) :
    vars.foldl (fun a v => (v.name, v.value) :: a) acc =
      (vars.map (fun v => (v.name, v.value))).reverse ++ acc := by
  induction vars generalizing acc with
  | nil => simp
  | cons v rest ih => simp [List.foldl_cons, ih]

theorem envGet_mkEnvMap (vars : List Variable) (name : Str) :
    envGet (mkEnvMap vars) name =
      (vars.reverse.find? (fun v => decide (v.name = name))).map Variable.value := by
  unfold envGet mkEnvMap
  rw [foldl_pair_eq_reverse_map, List.append_nil, ← List.map_reverse,
    List.find?_map]
  rw [Option.map_map]
  rfl

/-- Claim C10: after a successful Resolve the returned map holds, for every
name, the value of the last declaration with that name (later entries
overwrite earlier ones), while the Explain scan selects the first record
with the name (stopping at the first match); on the duplicate file A=1, A=2
the resolved map gives "2" for A while Explain renders the line-1 record
whose value is "1". -/
theorem resolve_last_explain_first :
    (∀ (e : EnvFile) (m : EnvMap) (e' : EnvFile), Resolve e = .ok (m, e') →
      ∀ name, envGet m name =
        (e'.Variables.reverse.find? (fun v => decide (v.name = name))).map Variable.value) ∧
    (∀ (name : Str) (vars : List Variable),
      explainFind name vars = vars.find? (fun v => decide (v.name = name))) ∧
    (Resolve (mkFile [mkVar ("A") ("") ("1") (":1") QuoteStyle.Unquoted [],
        mkVar ("A") ("") ("2") (":2") QuoteStyle.Unquoted []] false) =
      .ok ([(("A").data, ("2").data), (("A").data, ("1").data)],
        mkFile [mkVar ("A") ("1") ("1") (":1") QuoteStyle.Unquoted [],
          mkVar ("A") ("2") ("2") (":2") QuoteStyle.Unquoted []] true) ∧
      envGet [(("A").data, ("2").data), (("A").data, ("1").data)] (("A").data) =
        some (("2").data) ∧
      Explain (mkFile [mkVar ("A") ("1") ("1") (":1") QuoteStyle.Unquoted [],
          mkVar ("A") ("2") ("2") (":2") QuoteStyle.Unquoted []] true) (("A").data) =
        ("Variable: A\nLocation: :1\nRaw Value: 1\nFinal Value: 1\n").data) := by
  refine ⟨?_, ?_, by decide⟩
  · intro e m e' h name
    unfold Resolve at h
    by_cases he : e.expanded = true
    · simp only [he, if_true] at h
      cases h
      exact envGet_mkEnvMap _ _
    · simp only [he, if_false] at h
      cases hex : expandVars e.Variables [] with
      | error msg => rw [hex] at h; cases h
      | ok vs =>
        rw [hex] at h
        cases h
        exact envGet_mkEnvMap _ _
  · intro name vars
    induction vars with
    | nil => rfl
    | cons v rest ih =>
      by_cases hv : v.name = name
      · simp [explainFind, List.find?, hv]
      · simp [explainFind, List.find?, hv, ih]

theorem idxOf_not_mem (c : Char) (l : Str) (h : c ∉ l) : idxOf c l = none := by
  induction l with
  | nil => rfl
  | cons x xs ih =>
    simp only [List.mem_cons, not_or] at h
    have hx : ¬ x = c := fun hh => h.1 hh.symm
    simp only [idxOf, if_neg hx, ih h.2, Option.map_none']

theorem idxOf_append (c : Char) (xs ys : Str) (h : c ∉ xs) :
    idxOf c (xs ++ ys) = (idxOf c ys).map (· + xs.length) := by
  induction xs with
  | nil => simp [Option.map_id']
  | cons x xs ih =>
    simp only [List.mem_cons, not_or] at h
    have hx : ¬ x = c := fun hh => h.1 hh.symm
    simp only [List.cons_append, idxOf, if_neg hx, List.append_eq]
    rw [ih h.2]
    cases idxOf c ys with
    | none => rfl
    | some j =>
      simp only [Option.map_some', Option.some.injEq, List.length_cons]
      omega

theorem parse_rejects_invalid_name (nameStr valueStr : Str)
    (hne : '=' ∉ nameStr) (hnc : ':' ∉ nameStr)
    (hhash : (("#").data).isPrefixOf (nameStr ++ '=' :: valueStr) = false)
    (hexp : (("export ").data).isPrefixOf (nameStr ++ '=' :: valueStr) = false)
    (hbad : isValidVariableName (trimSpace nameStr) = false) :
    Parse [nameStr ++ '=' :: valueStr] = .error (.invalidName 1 (trimSpace nameStr)) := by
  have hlen : (([nameStr ++ '=' :: valueStr] : List Str)).length = 1 := by simp
  unfold Parse
  rw [hlen]
  have hiE : idxOf '=' (nameStr ++ '=' :: valueStr) = some nameStr.length := by
    rw [idxOf_append _ _ _ hne]
    simp [idxOf]
  have hiC : idxOf ':' (nameStr ++ '=' :: valueStr) =
      (idxOf ':' valueStr).map (fun j => j + 1 + nameStr.length) := by
    rw [idxOf_append _ _ _ hnc]
    simp only [idxOf, if_neg (by decide : ¬('=' = ':'))]
    cases idxOf ':' valueStr with
    | none => rfl
    | some j => rfl
  have hempty : (nameStr ++ '=' :: valueStr).isEmpty = false := by
    cases nameStr with
    | nil => rfl
    | cons x xs => rfl
  have htake : (nameStr ++ '=' :: valueStr).take nameStr.length = nameStr := List.take_left _ _
  simp only [parseEnvAuxF, hempty, hhash, hexp]
  simp only [Bool.false_eq_true, if_false]
  rw [hiE, hiC]
  cases hic : idxOf ':' valueStr with
  | none => simp [htake, hbad]
  | some j =>
    have hlt : nameStr.length < j + 1 + nameStr.length := by omega
    simp [htake, hbad, hlt]

theorem first_name_char_eq (c : Char) :
    (!('0' ≤ c && c ≤ '9') && isValidNameChar c) =
      (('A' ≤ c && c ≤ 'Z') || ('a' ≤ c && c ≤ 'z') || c == '_' || c == '.' || c == '-') := by
  unfold isValidNameChar
  by_cases hd : ('0' ≤ c ∧ c ≤ '9')
  · have h1 : ¬('A' ≤ c) := fun h => absurd (le_trans h hd.2) (by decide)
    have h2 : ¬('a' ≤ c) := fun h => absurd (le_trans h hd.2) (by decide)
    have h3 : ¬(c = '_') := fun h => absurd hd.2 (by simp [h])
    have h4 : ¬(c = '.') := fun h => absurd hd.1 (by simp [h])
    have h5 : ¬(c = '-') := fun h => absurd hd.1 (by simp [h])
    simp [hd.1, hd.2, h1, h2, h3, h4, h5]
  · have : ¬('0' ≤ c) ∨ ¬(c ≤ '9') := by tauto
    rcases this with h | h <;> simp [h]

/-- Claim C6 (amended): Parse accepts a declaration's trimmed name if and
only if it matches [A-Za-z_.-][A-Za-z0-9_.-]* — that is, the name is
nonempty, every character lies in [A-Za-z0-9_.-], and only a leading digit
is rejected (a leading '.' or '-' is accepted, unlike the claimed
[A-Za-z_] first-character class) — and every rejection produces an error
carrying the offending trimmed identifier and its 1-based line number. -/
theorem name_validation_amended :
    (∀ name : Str, isValidVariableName name = amendedNamePattern name) ∧
    (∀ nameStr valueStr : Str, '=' ∉ nameStr → ':' ∉ nameStr →
      (("#").data).isPrefixOf (nameStr ++ '=' :: valueStr) = false →
      (("export ").data).isPrefixOf (nameStr ++ '=' :: valueStr) = false →
      isValidVariableName (trimSpace nameStr) = false →
      Parse [nameStr ++ '=' :: valueStr] = .error (.invalidName 1 (trimSpace nameStr))) := by
  constructor
  · intro name
    cases name with
    | nil => rfl
    | cons c cs =>
      show (!('0' ≤ c && c ≤ '9') && (c :: cs).all isValidNameChar) = _
      rw [List.all_cons, ← Bool.and_assoc, first_name_char_eq]
      rfl
  · intro nameStr valueStr hne hnc hhash hexp hbad
    exact parse_rejects_invalid_name nameStr valueStr hne hnc hhash hexp hbad

/-- Witness for the amended claim C6 at the digit-first declaration
123VAR=value. -/
theorem name_validation_amended_witness :
    Parse [("123VAR=value").data] = .error (.invalidName 1 (("123VAR").data)) := by
  have h := name_validation_amended.2 (("123VAR").data) (("value").data)
    (by decide) (by decide) (by decide) (by decide) (by decide)
  have e1 : (("123VAR").data) ++ '=' :: (("value").data) = ("123VAR=value").data := by decide
  have e2 : trimSpace (("123VAR").data) = ("123VAR").data := by decide
  rw [e1, e2] at h
  exact h

theorem findClosingBraceAux_spec (l : Str) (i d j : Nat) (hd : 1 ≤ d)
    (h : findClosingBraceAux l i d = some j) :
    ∃ k, k < l.length ∧ j = i + k ∧ l.get? k = some '}' ∧
      (l.take k).count '{' + d = (l.take k).count '}' + 1 ∧
      ∀ m' < k, ¬(l.get? m' = some '}' ∧
        (l.take m').count '{' + d = (l.take m').count '}' + 1) := by
  induction l generalizing i d j with
  | nil => simp [findClosingBraceAux] at h
  | cons c cs ih =>
    by_cases hc1 : c = '{'
    · subst hc1
      rw [findClosingBraceAux, if_pos rfl] at h
      obtain ⟨k, hk, hj, hget, hcount, hmin⟩ := ih (i + 1) (d + 1) j (by omega) h
      refine ⟨k + 1, by simpa using hk, by omega, by simpa using hget, ?_, ?_⟩
      · rw [List.take_succ_cons, List.count_cons_self,
          List.count_cons_of_ne (by decide : ('}' : Char) ≠ '{')]
        omega
      · intro m' hm'
        cases m' with
        | zero => simp
        | succ m =>
          have hm := hmin m (by omega)
          simp only [List.get?_cons_succ, List.take_succ_cons, List.count_cons_self,
            List.count_cons_of_ne (by decide : ('}' : Char) ≠ '{')]
          intro hcon
          exact hm ⟨hcon.1, by omega⟩
    · by_cases hc2 : c = '}'
      · subst hc2
        rw [findClosingBraceAux, if_neg hc1] at h
        by_cases hd1 : d = 1
        · subst hd1
          rw [if_pos rfl] at h
          cases h
          refine ⟨0, by simp, by omega, by simp, by simp, by omega⟩
        · rw [if_neg hd1] at h
          obtain ⟨k, hk, hj, hget, hcount, hmin⟩ := ih (i + 1) (d - 1) j (by omega) h
          refine ⟨k + 1, by simpa using hk, by omega, by simpa using hget, ?_, ?_⟩
          · rw [List.take_succ_cons, List.count_cons_self,
              List.count_cons_of_ne (by decide : ('{' : Char) ≠ '}')]
            omega
          · intro m' hm'
            cases m' with
            | zero =>
              intro hcon
              have h2 := hcon.2
              simp only [List.take_zero, List.count_nil] at h2
              omega
            | succ m =>
              have hm := hmin m (by omega)
              simp only [List.get?_cons_succ, List.take_succ_cons, List.count_cons_self,
                List.count_cons_of_ne (by decide : ('{' : Char) ≠ '}')]
              intro hcon
              exact hm ⟨hcon.1, by omega⟩
      · rw [findClosingBraceAux, if_neg hc1, if_neg hc2] at h
        obtain ⟨k, hk, hj, hget, hcount, hmin⟩ := ih (i + 1) d j hd h
        refine ⟨k + 1, by simpa using hk, by omega, by simpa using hget, ?_, ?_⟩
        · rw [List.take_succ_cons,
            List.count_cons_of_ne (fun hh => hc1 hh.symm),
            List.count_cons_of_ne (fun hh => hc2 hh.symm)]
          omega
        · intro m' hm'
          cases m' with
          | zero =>
            intro hcon
            exact hc2 (by simpa using hcon.1)
          | succ m =>
            have hm := hmin m (by omega)
            simp only [List.get?_cons_succ, List.take_succ_cons,
              List.count_cons_of_ne (fun hh => hc1 hh.symm),
              List.count_cons_of_ne (fun hh => hc2 hh.symm)]
            intro hcon
            exact hm ⟨hcon.1, by omega⟩


/-- Claim C2 (amended): when the engine sees a dollar-brace, it locates the
matching close brace by counting every '\x7b' as a depth increase and every
'\x7d' as a decrease — a bare brace not preceded by '$' also counts — so the
match is the first close brace at which the number of open braces seen
equals the number of close braces seen since the start of the braced span. -/
theorem closing_brace_amended (value : Str) (start j : Nat)
    (h : findClosingBrace value start = some j) :
    ∃ k, k < (value.drop start).length ∧ j = start + k ∧
      (value.drop start).get? k = some '}' ∧
      ((value.drop start).take k).count '{' = ((value.drop start).take k).count '}' ∧
      ∀ m' < k, ¬((value.drop start).get? m' = some '}' ∧
        ((value.drop start).take m').count '{' = ((value.drop start).take m').count '}') := by
  obtain ⟨k, hk, hj, hget, hcount, hmin⟩ :=
    findClosingBraceAux_spec (value.drop start) start 1 j (le_refl 1) h
  exact ⟨k, hk, hj, hget, by omega, fun m' hm' hcon => hmin m' hm' ⟨hcon.1, by omega⟩⟩

/-- Witness for the amended claim C2 on the bare-brace input. -/
theorem closing_brace_amended_witness :
    ∃ k, k < ((("$\x7bV-\x7ba\x7dX\x7d").data).drop 2).length ∧ 8 = 2 + k ∧
      ((("$\x7bV-\x7ba\x7dX\x7d").data).drop 2).get? k = some '}' ∧
      (((("$\x7bV-\x7ba\x7dX\x7d").data).drop 2).take k).count '{' =
        (((("$\x7bV-\x7ba\x7dX\x7d").data).drop 2).take k).count '}' ∧
      ∀ m' < k, ¬(((("$\x7bV-\x7ba\x7dX\x7d").data).drop 2).get? m' = some '}' ∧
        (((("$\x7bV-\x7ba\x7dX\x7d").data).drop 2).take m').count '{' =
          (((("$\x7bV-\x7ba\x7dX\x7d").data).drop 2).take m').count '}') :=
  closing_brace_amended (("$\x7bV-\x7ba\x7dX\x7d").data) 2 8 (by decide)

theorem filter_orderedInsert_priority (q : Int) (x : PrioritizedLookup)
    (s : List PrioritizedLookup) :
    (s.orderedInsert (fun a b => b.priority ≤ a.priority) x).filter
        (fun a => decide (a.priority = q)) =
      (if x.priority = q then x :: s.filter (fun a => decide (a.priority = q))
       else s.filter (fun a => decide (a.priority = q))) := by
  induction s with
  | nil =>
    by_cases hq : x.priority = q <;> simp [List.orderedInsert, List.filter, hq]
  | cons y ys ih =>
    simp only [List.orderedInsert]
    by_cases hr : y.priority ≤ x.priority
    · rw [if_pos hr]
      by_cases hq : x.priority = q <;> simp [List.filter, hq]
    · rw [if_neg hr]
      have hlt : x.priority < y.priority := lt_of_not_le hr
      by_cases hyq : y.priority = q
      · have hxq : ¬ x.priority = q := by omega
        simp only [List.filter_cons, decide_eq_true_eq, ih]
        simp [hyq, hxq]
      · simp only [List.filter_cons, decide_eq_true_eq, ih]
        by_cases hq : x.priority = q
        · simp [hq, hyq]
        · simp [hq, hyq]

theorem filter_sortSlice_priority (q : Int) (l : List PrioritizedLookup) :
    (sortSliceByPriority l).filter (fun a => decide (a.priority = q)) =
      l.filter (fun a => decide (a.priority = q)) := by
  induction l with
  | nil => rfl
  | cons x xs ih =>
    show (List.orderedInsert _ x (List.insertionSort _ xs)).filter _ = _
    rw [filter_orderedInsert_priority]
    by_cases hq : x.priority = q
    · rw [if_pos hq]
      rw [show List.insertionSort (fun a b => b.priority ≤ a.priority) xs =
        sortSliceByPriority xs from rfl, ih]
      simp [List.filter_cons, hq]
    · rw [if_neg hq]
      rw [show List.insertionSort (fun a b => b.priority ≤ a.priority) xs =
        sortSliceByPriority xs from rfl, ih]
      simp [List.filter_cons, hq]

theorem sortSlice_sorted (l : List PrioritizedLookup) :
    List.Sorted (fun a b => b.priority ≤ a.priority) (sortSliceByPriority l) := by
  haveI : IsTotal PrioritizedLookup (fun a b => b.priority ≤ a.priority) :=
    ⟨fun a b => le_total b.priority a.priority⟩
  haveI : IsTrans PrioritizedLookup (fun a b => b.priority ≤ a.priority) :=
    ⟨fun a b c hab hbc => le_trans hbc hab⟩
  exact List.sorted_insertionSort _ l

theorem lookupFirst_eq_some_iff (ls : List PrioritizedLookup) (name : Str) (v : Variable) :
    lookupFirst ls name = some v ↔
      ∃ i pl, ls.get? i = some pl ∧ pl.lookup name = some v ∧
        ∀ j pl', j < i → ls.get? j = some pl' → pl'.lookup name = none := by
  induction ls with
  | nil => simp [lookupFirst]
  | cons p ps ih =>
    simp only [lookupFirst]
    cases hp : p.lookup name with
    | some w =>
      simp only [Option.some.injEq]
      constructor
      · rintro rfl
        exact ⟨0, p, rfl, hp, by omega⟩
      · rintro ⟨i, pl, hget, hlk, hmin⟩
        cases i with
        | zero =>
          cases hget
          rw [hp] at hlk
          exact (Option.some.injEq _ _).mp hlk
        | succ i' =>
          have := hmin 0 p (by omega) rfl
          rw [hp] at this
          cases this
    | none =>
      rw [ih]
      constructor
      · rintro ⟨i, pl, hget, hlk, hmin⟩
        refine ⟨i + 1, pl, by simpa using hget, hlk, ?_⟩
        intro j pl' hj hget'
        cases j with
        | zero => cases hget'; exact hp
        | succ j' => exact hmin j' pl' (by omega) (by simpa using hget')
      · rintro ⟨i, pl, hget, hlk, hmin⟩
        cases i with
        | zero =>
          cases hget
          rw [hp] at hlk
          cases hlk
        | succ i' =>
          exact ⟨i', pl, by simpa using hget, hlk,
            fun j pl' hj hget' => hmin (j + 1) pl' (by omega) (by simpa using hget')⟩

theorem lookupFirst_eq_none_iff (ls : List PrioritizedLookup) (name : Str) :
    lookupFirst ls name = none ↔ ∀ pl ∈ ls, pl.lookup name = none := by
  induction ls with
  | nil => simp [lookupFirst]
  | cons p ps ih =>
    simp only [lookupFirst]
    cases hp : p.lookup name with
    | some w => simp [hp]
    | none => simp [hp, ih]

/-- Claim C8: a composite lookup constructed from a list of prioritized
sources stores, once at construction, that list sorted by descending
priority with ties kept in construction order (stability is stated for the
slice sizes on which Go's sort.Slice runs its insertion sort, which covers
every composite this repository builds), and a query tries the stored
sources in that order, returning the first hit or a miss when every source
misses; Lookup only reads the stored list, so the order never changes after
construction. -/
theorem composite_lookup_order (lookups : List PrioritizedLookup)
    (hlen : lookups.length ≤ 12) :
    List.Sorted (fun a b => b.priority ≤ a.priority) (NewCompositeLookup lookups).lookups ∧
    (∀ q : Int, (NewCompositeLookup lookups).lookups.filter (fun a => decide (a.priority = q)) =
      lookups.filter (fun a => decide (a.priority = q))) ∧
    (∀ (name : Str) (v : Variable), (NewCompositeLookup lookups).Lookup name = some v ↔
      ∃ i pl, (NewCompositeLookup lookups).lookups.get? i = some pl ∧
        pl.lookup name = some v ∧
        ∀ j pl', j < i → (NewCompositeLookup lookups).lookups.get? j = some pl' →
          pl'.lookup name = none) ∧
    (∀ name : Str, (NewCompositeLookup lookups).Lookup name = none ↔
      ∀ pl ∈ (NewCompositeLookup lookups).lookups, pl.lookup name = none) :=
  ⟨sortSlice_sorted lookups, fun q => filter_sortSlice_priority q lookups,
    fun name v => lookupFirst_eq_some_iff _ name v, fun name => lookupFirst_eq_none_iff _ name⟩

/-- Witness for claim C8 on a three-source composite with a priority tie. -/
theorem composite_lookup_order_witness :
    List.Sorted (fun a b : PrioritizedLookup => b.priority ≤ a.priority)
      (NewCompositeLookup [WithPriority (fun _ => none) 1,
        WithPriority (fun _ => none) 2, WithPriority (fun _ => none) 1]).lookups :=
  (composite_lookup_order _ (by decide)).1

/-- Witness for claim C10: the last-declaration-wins conclusion evaluated on
the duplicate file A=1, A=2. -/
theorem resolve_last_explain_first_witness :
    envGet [(("A").data, ("2").data), (("A").data, ("1").data)] (("A").data) =
      some (("2").data) := by
  have h := resolve_last_explain_first.1
    (mkFile [mkVar ("A") ("") ("1") (":1") QuoteStyle.Unquoted [],
      mkVar ("A") ("") ("2") (":2") QuoteStyle.Unquoted []] false)
    [(("A").data, ("2").data), (("A").data, ("1").data)]
    (mkFile [mkVar ("A") ("1") ("1") (":1") QuoteStyle.Unquoted [],
      mkVar ("A") ("2") ("2") (":2") QuoteStyle.Unquoted []] true)
    (by decide) (("A").data)
  rw [h]
  decide

theorem provAgrees_nil (lookup : LookupFn) : provAgrees lookup [] := by
  intro p hp
  cases hp

theorem provAgrees_append (lookup : LookupFn) (m1 m2 : Prov)
    (h1 : provAgrees lookup m1) (h2 : provAgrees lookup m2) :
    provAgrees lookup (m1 ++ m2) := by
  intro p hp
  rcases List.mem_append.mp hp with h | h
  · exact h1 p h
  · exact h2 p h

theorem provAgrees_single (lookup : LookupFn) (n : Str) (v : Variable)
    (h : lookup n = some v) : provAgrees lookup [(n, v.location)] := by
  intro p hp
  rcases List.mem_singleton.mp hp with rfl
  exact ⟨v, h, rfl⟩

theorem provAgrees_merge (lookup : LookupFn) (dst src : Prov)
    (h1 : provAgrees lookup dst) (h2 : provAgrees lookup src) :
    provAgrees lookup (mergeProv dst src) :=
  provAgrees_append lookup src dst h2 h1

theorem expandBraceStep_agrees (lookup : LookupFn)
    (recur : Str → Except Str (Str × Prov))
    (hrec : ∀ x s m, recur x = .ok (s, m) → provAgrees lookup m)
    (content emit : Str) (mLocal : Prov)
    (h : expandBraceStep lookup recur content = .ok (emit, mLocal)) :
    provAgrees lookup mLocal := by
  simp only [expandBraceStep] at h
  repeat' split at h
  all_goals cases h
  all_goals solve_by_elim [provAgrees_nil, provAgrees_single, provAgrees_merge]

theorem expandStringF_agrees (lookup : LookupFn) (fuel : Nat) :
    ∀ (value s : Str) (m : Prov),
      expandStringF lookup fuel value = .ok (s, m) → provAgrees lookup m := by
  induction fuel with
  | zero =>
    intro value s m h
    rw [expandStringF.eq_def] at h
    cases h
    exact provAgrees_nil lookup
  | succ fuel ih =>
    intro value s m h
    rw [expandStringF.eq_def] at h
    dsimp only at h
    repeat' split at h
    all_goals cases h
    all_goals try solve_by_elim [provAgrees_nil, provAgrees_single, provAgrees_merge,
      expandBraceStep_agrees]
    exact provAgrees_merge lookup _ _
      (expandBraceStep_agrees lookup _ ih _ _ _ (by assumption))
      (ih _ _ _ (by assumption))

theorem provGet_append (a b : Prov) (k : Str) :
    provGet (a ++ b) k =
      ((a.find? (fun p => decide (p.1 = k))).or (b.find? (fun p => decide (p.1 = k)))).map
        Prod.snd := by
  unfold provGet
  rw [List.find?_append]

theorem find?_filter_of_keep {α : Type} (l : List α) (pk keep : α → Bool)
    (h : ∀ x, pk x = true → keep x = true) :
    (l.filter keep).find? pk = l.find? pk := by
  induction l with
  | nil => rfl
  | cons x xs ih =>
    by_cases hx : pk x = true
    · rw [List.filter_cons, if_pos (h x hx)]
      rw [List.find?_cons_of_pos _ hx, List.find?_cons_of_pos _ hx]
    · rw [List.filter_cons]
      by_cases hk : keep x = true
      · rw [if_pos hk, List.find?_cons_of_neg _ (by simpa using hx),
          List.find?_cons_of_neg _ (by simpa using hx), ih]
      · rw [if_neg hk, List.find?_cons_of_neg _ (by simpa using hx), ih]

theorem find?_filter_of_drop {α : Type} (l : List α) (pk keep : α → Bool)
    (h : ∀ x, pk x = true → keep x = false) :
    (l.filter keep).find? pk = none := by
  induction l with
  | nil => rfl
  | cons x xs ih =>
    rw [List.filter_cons]
    by_cases hk : keep x = true
    · have hx : pk x = false := by
        by_cases hp : pk x = true
        · rw [h x hp] at hk; cases hk
        · simpa using hp
      rw [if_pos hk, List.find?_cons_of_neg _ (by simp [hx]), ih]
    · rw [if_neg hk, ih]

theorem merge_overwrite_eq_keep (lookup : LookupFn) (dst src : Prov)
    (h1 : provAgrees lookup dst) (h2 : provAgrees lookup src) (k : Str) :
    provGet (mergeProv dst src) k = provGet (provMergeKeep dst src) k := by
  unfold mergeProv provMergeKeep
  rw [provGet_append, provGet_append]
  cases hd : dst.find? (fun p => decide (p.1 = k)) with
  | none =>
    have hkeep : ∀ x : Str × Location, (fun p : Str × Location => decide (p.1 = k)) x = true →
        (fun p : Str × Location => (provGet dst p.1).isNone) x = true := by
      intro x hx
      have hxk : x.1 = k := of_decide_eq_true hx
      show (provGet dst x.1).isNone = true
      rw [hxk]
      unfold provGet
      rw [hd]
      rfl
    rw [find?_filter_of_keep src _ _ hkeep]
  | some e =>
    have hkeep : ∀ x : Str × Location, (fun p : Str × Location => decide (p.1 = k)) x = true →
        (fun p : Str × Location => (provGet dst p.1).isNone) x = false := by
      intro x hx
      have hxk : x.1 = k := of_decide_eq_true hx
      show (provGet dst x.1).isNone = false
      rw [hxk]
      unfold provGet
      rw [hd]
      rfl
    rw [find?_filter_of_drop src _ _ hkeep]
    cases hs : src.find? (fun p => decide (p.1 = k)) with
    | none => rfl
    | some e2 =>
      have he' := List.find?_some hd
      have he2' := List.find?_some hs
      have he : e.1 = k := of_decide_eq_true he'
      have he2 : e2.1 = k := of_decide_eq_true he2' 
      obtain ⟨v, hv, hloc⟩ := h1 e (List.mem_of_find?_eq_some hd)
      obtain ⟨v2, hv2, hloc2⟩ := h2 e2 (List.mem_of_find?_eq_some hs)
      rw [he] at hv
      rw [he2] at hv2
      rw [hv] at hv2
      cases hv2
      simp [Option.or, hloc, hloc2]


/-- Claim C9: within one expansion call the lookup function is fixed, and
every provenance entry the engine records — including the entries of the
recursive default/replacement expansions that get merged into the outer map
— stores exactly the location of the looked-up variable (first conjunct).
Consequently any key colliding during a merge carries the same location on
both sides, and the code's overwriting merge produces, pointwise, the same
map as the union in which a later merge never overwrites a key already
present (second conjunct): the first contributor's location for a name
wins. -/
theorem provenance_merge_union :
    (∀ (lookup : LookupFn) (fuel : Nat) (value s : Str) (m : Prov),
      expandStringF lookup fuel value = .ok (s, m) → provAgrees lookup m) ∧
    (∀ (lookup : LookupFn) (dst src : Prov),
      provAgrees lookup dst → provAgrees lookup src →
      ∀ k, provGet (mergeProv dst src) k = provGet (provMergeKeep dst src) k) :=
  ⟨fun lookup fuel value s m h => expandStringF_agrees lookup fuel value s m h,
   fun lookup dst src h1 h2 k => merge_overwrite_eq_keep lookup dst src h1 h2 k⟩

/-- Witness for claim C9: the provenance map produced for "$B" under a
concrete lookup agrees with that lookup. -/
theorem provenance_merge_union_witness :
    provAgrees
      (fun n => if n = ("B").data then
        some (mkVar ("B") ("b") ("b") (":9") QuoteStyle.Unquoted []) else none)
      [(("B").data, (":9").data)] :=
  provenance_merge_union.1
    (fun n => if n = ("B").data then
      some (mkVar ("B") ("b") ("b") (":9") QuoteStyle.Unquoted []) else none)
    2 (("$B").data) (("b").data) [(("B").data, (":9").data)] (by decide)

theorem findClosingBraceAux_skip (d : Nat) (xs ys : Str) (i : Nat)
    (h1 : '{' ∉ xs) (h2 : '}' ∉ xs) :
    findClosingBraceAux (xs ++ ys) i d = findClosingBraceAux ys (i + xs.length) d := by
  induction xs generalizing i with
  | nil => simp
  | cons c cs ih =>
    simp only [List.mem_cons, not_or] at h1 h2
    have hc1 : ¬ (c = '{') := fun hh => h1.1 hh.symm
    have hc2 : ¬ (c = '}') := fun hh => h2.1 hh.symm
    rw [List.cons_append, findClosingBraceAux, if_neg hc1, if_neg hc2, ih (i + 1) h1.2 h2.2]
    congr 1
    simp only [List.length_cons]
    omega

theorem findClosingBraceAux_close (ys : Str) (i : Nat) :
    findClosingBraceAux ('}' :: ys) i 1 = some i := by
  simp [findClosingBraceAux]

theorem findOperatorAux_skip (hd : Char) (op' : Str) (xs rest : Str) (i : Nat)
    (hhd : hd ∉ xs) (h1 : '{' ∉ xs) (h2 : '}' ∉ xs)
    (hrest : rest.head? ≠ some '{') :
    findOperatorAux (hd :: op') (xs ++ rest) i 0 =
      findOperatorAux (hd :: op') rest (i + xs.length) 0 := by
  induction xs generalizing i with
  | nil => simp
  | cons c cs ih =>
    simp only [List.mem_cons, not_or] at hhd h1 h2
    rw [List.cons_append, findOperatorAux.eq_def]
    split
    · rename_i heq
      exact absurd heq (by simp)
    · rename_i cs' heq
      exfalso
      have hc2 : (cs ++ rest).head? = some '{' := by
        have ht := congrArg List.tail heq
        simp only [List.tail_cons] at ht
        rw [ht]
        rfl
      cases cs with
      | nil => exact hrest (by simpa using hc2)
      | cons a as =>
        apply h1.2
        have ha : a = '{' := by simpa using hc2
        simp [ha]
    · rename_i i' l' d' j' c2 cs2 hnm heq
      injection heq with he1 he2
      subst he1
      subst he2
      have hpre : ((hd :: op').isPrefixOf (c :: (cs ++ rest))) = false := by
        simp [List.isPrefixOf, hhd.1]
      rw [if_neg (by simp), if_pos rfl, hpre]
      simp only [Bool.false_eq_true, if_false]
      rw [ih (i' + 1) hhd.2 h1.2 h2.2]
      congr 1
      simp only [List.length_cons]
      omega

theorem findOperatorAux_skip_pos (op : Str) (xs rest : Str) (i d : Nat) (hd : 0 < d)
    (h1 : '{' ∉ xs) (h2 : '}' ∉ xs) (hrest : rest.head? ≠ some '{') :
    findOperatorAux op (xs ++ rest) i d = findOperatorAux op rest (i + xs.length) d := by
  induction xs generalizing i with
  | nil => simp
  | cons c cs ih =>
    simp only [List.mem_cons, not_or] at h1 h2
    rw [List.cons_append, findOperatorAux.eq_def]
    split
    · rename_i heq
      exact absurd heq (by simp)
    · rename_i cs' heq
      exfalso
      have hc2 : (cs ++ rest).head? = some '{' := by
        have ht := congrArg List.tail heq
        simp only [List.tail_cons] at ht
        rw [ht]
        rfl
      cases cs with
      | nil => exact hrest (by simpa using hc2)
      | cons a as =>
        apply h1.2
        have ha : a = '{' := by simpa using hc2
        simp [ha]
    · rename_i i' l' d' j' c2 cs2 hnm heq
      injection heq with he1 he2
      subst he1
      subst he2
      rw [if_neg (fun hcon => h2.1 hcon.1.symm), if_neg (by omega)]
      rw [ih _ h1.2 h2.2]
      congr 1
      simp only [List.length_cons]
      omega

theorem findOperator_none (hd : Char) (op' : Str) (content : Str)
    (hhd : hd ∉ content) (h1 : '{' ∉ content) (h2 : '}' ∉ content) :
    findOperator content (hd :: op') = none := by
  unfold findOperator
  rw [show content = content ++ [] from (List.append_nil content).symm,
    findOperatorAux_skip hd op' content [] 0 hhd h1 h2 (by simp)]
  rfl

theorem findOperator_colon_qmark (name msg : Str)
    (hn : ':' ∉ name) (h1 : '{' ∉ name) (h2 : '}' ∉ name) :
    findOperator (name ++ ':' :: '?' :: msg) [':', '?'] = some name.length := by
  unfold findOperator
  rw [findOperatorAux_skip ':' ['?'] name (':' :: '?' :: msg) 0 hn h1 h2 (by simp)]
  simp [findOperatorAux, List.isPrefixOf]

theorem findOperator_qmark (name msg : Str)
    (hn : '?' ∉ name) (h1 : '{' ∉ name) (h2 : '}' ∉ name) :
    findOperator (name ++ '?' :: msg) ['?'] = some name.length := by
  unfold findOperator
  rw [findOperatorAux_skip '?' [] name ('?' :: msg) 0 hn h1 h2 (by simp)]
  simp [findOperatorAux, List.isPrefixOf]

theorem findOperator_nested_none (op inner : Str)
    (h1 : '{' ∉ inner) (h2 : '}' ∉ inner) :
    findOperator ('$' :: '{' :: (inner ++ ['}'])) op = none := by
  unfold findOperator
  rw [show findOperatorAux op ('$' :: '{' :: (inner ++ ['}'])) 0 0 =
    findOperatorAux op (inner ++ ['}']) 2 1 from rfl]
  rw [show ([('}' : Char)] : Str) = '}' :: [] from rfl]
  rw [findOperatorAux_skip_pos op inner ('}' :: []) 2 1 (by omega) h1 h2 (by simp)]
  rfl

theorem expandStringF_braced (lookup : LookupFn) (fuel : Nat) (xs : Str)
    (h1 : '{' ∉ xs) (h2 : '}' ∉ xs) :
    expandStringF lookup (fuel + 1) ('$' :: '{' :: (xs ++ ['}'])) =
      match expandBraceStep lookup (expandStringF lookup fuel) xs with
      | .error e => .error e
      | .ok (emit, mLocal) => .ok (emit, mLocal) := by
  have hfcb : findClosingBrace ('$' :: '{' :: (xs ++ ['}'])) 2 = some (2 + xs.length) := by
    unfold findClosingBrace
    rw [show (('$' :: '{' :: (xs ++ ['}'])).drop 2) = xs ++ ['}'] from rfl]
    rw [show ([('}' : Char)] : Str) = '}' :: [] from rfl]
    rw [findClosingBraceAux_skip 1 xs ('}' :: []) 2 h1 h2, findClosingBraceAux_close]
  have hred : expandStringF lookup (fuel + 1) ('$' :: '{' :: (xs ++ ['}'])) =
      match findClosingBrace ('$' :: '{' :: (xs ++ ['}'])) 2 with
      | none =>
        match expandStringF lookup fuel ('{' :: (xs ++ ['}'])) with
        | .error e => .error e
        | .ok (s, m) => .ok ('$' :: s, m)
      | some endIdx =>
        match expandBraceStep lookup (expandStringF lookup fuel) ((xs ++ ['}']).take (endIdx - 2)) with
        | .error e => .error e
        | .ok (emit, mLocal) =>
          match expandStringF lookup fuel ((xs ++ ['}']).drop (endIdx - 1)) with
          | .error e => .error e
          | .ok (s, m) => .ok (emit ++ s, mergeProv mLocal m) := rfl
  rw [hred, hfcb]
  dsimp only
  have htake : (xs ++ ['}']).take (2 + xs.length - 2) = xs := by
    rw [show 2 + xs.length - 2 = xs.length from by omega]
    exact List.take_left xs _
  have hdrop : (xs ++ ['}']).drop (2 + xs.length - 1) = [] := by
    rw [show 2 + xs.length - 1 = xs.length + 1 from by omega]
    rw [← List.drop_drop]
    rw [List.drop_left xs _]
    rfl
  rw [htake, hdrop]
  cases hstep : expandBraceStep lookup (expandStringF lookup fuel) xs with
  | error e => rfl
  | ok p =>
    cases p with
    | mk emit mLocal =>
      rw [show expandStringF lookup fuel [] = .ok ([], []) from by cases fuel <;> rfl]
      simp [mergeProv]

theorem expandBraceStep_colon_qmark (lookup : LookupFn)
    (recur : Str → Except Str (Str × Prov)) (name msg : Str)
    (hn : ':' ∉ name) (h1 : '{' ∉ name) (h2 : '}' ∉ name) :
    expandBraceStep lookup recur (name ++ ':' :: '?' :: msg) =
      match lookup name with
      | some v =>
        if v.value = [] then .error (requiredVariableMsg name msg)
        else .ok (v.value, [(name, v.location)])
      | none => .error (requiredVariableMsg name msg) := by
  have hop := findOperator_colon_qmark name msg hn h1 h2
  unfold expandBraceStep
  rw [hop]
  dsimp only
  have htake : (name ++ ':' :: '?' :: msg).take name.length = name := List.take_left name _
  have hdrop : (name ++ ':' :: '?' :: msg).drop (name.length + 2) = msg := by
    rw [← List.drop_drop, List.drop_left name _]
    rfl
  rw [htake, hdrop]

theorem expandBraceStep_qmark (lookup : LookupFn)
    (recur : Str → Except Str (Str × Prov)) (name msg : Str)
    (hn1 : ':' ∉ name) (hn2 : '?' ∉ name) (hm1 : ':' ∉ msg)
    (h1 : '{' ∉ name) (h2 : '}' ∉ name) (h3 : '{' ∉ msg) (h4 : '}' ∉ msg) :
    expandBraceStep lookup recur (name ++ '?' :: msg) =
      match lookup name with
      | some v => .ok (v.value, [(name, v.location)])
      | none => .error (requiredVariableMsg name msg) := by
  have hcolon : ':' ∉ name ++ '?' :: msg := by
    simp only [List.mem_append, List.mem_cons, not_or]
    exact ⟨hn1, by decide, hm1⟩
  have hbl : '{' ∉ name ++ '?' :: msg := by
    simp only [List.mem_append, List.mem_cons, not_or]
    exact ⟨h1, by decide, h3⟩
  have hbr : '}' ∉ name ++ '?' :: msg := by
    simp only [List.mem_append, List.mem_cons, not_or]
    exact ⟨h2, by decide, h4⟩
  have hop1 : findOperator (name ++ '?' :: msg) [':', '?'] = none :=
    findOperator_none ':' ['?'] _ hcolon hbl hbr
  have hop2 : findOperator (name ++ '?' :: msg) [':', '-'] = none :=
    findOperator_none ':' ['-'] _ hcolon hbl hbr
  have hop3 : findOperator (name ++ '?' :: msg) [':', '+'] = none :=
    findOperator_none ':' ['+'] _ hcolon hbl hbr
  have hop4 := findOperator_qmark name msg hn2 h1 h2
  unfold expandBraceStep
  rw [hop1, hop2, hop3, hop4]
  dsimp only
  have htake : (name ++ '?' :: msg).take name.length = name := List.take_left name _
  have hdrop : (name ++ '?' :: msg).drop (name.length + 1) = msg := by
    rw [← List.drop_drop, List.drop_left name _]
    rfl
  rw [htake, hdrop]

/-- Claim C3: for every braced form name:?message (with the form's name
free of ':' and braces and its message free of braces, so that the written
operator is the one detected), expansion fails exactly when the lookup
misses or the value is empty, with the literal message when it is nonempty
and otherwise with "name: required variable is not set"; for every braced
form name?message (name additionally free of '?', message free of ':'),
expansion fails exactly when the lookup misses, with the same
message-or-default rule, and an empty looked-up value is emitted. -/
theorem required_qmark_operators :
    (∀ (lookup : LookupFn) (name msg : Str),
      ':' ∉ name → '{' ∉ name → '}' ∉ name → '{' ∉ msg → '}' ∉ msg →
      expandString (("$\x7b").data ++ name ++ (":?").data ++ msg ++ ("\x7d").data) lookup =
        match lookup name with
        | some v =>
          if v.value = [] then .error (requiredVariableMsg name msg)
          else .ok (v.value, [(name, v.location)])
        | none => .error (requiredVariableMsg name msg)) ∧
    (∀ (lookup : LookupFn) (name msg : Str),
      ':' ∉ name → '?' ∉ name → ':' ∉ msg →
      '{' ∉ name → '}' ∉ name → '{' ∉ msg → '}' ∉ msg →
      expandString (("$\x7b").data ++ name ++ ("?").data ++ msg ++ ("\x7d").data) lookup =
        match lookup name with
        | some v => .ok (v.value, [(name, v.location)])
        | none => .error (requiredVariableMsg name msg)) := by
  constructor
  · intro lookup name msg hn h1 h2 h3 h4
    have hxl : '{' ∉ name ++ ':' :: '?' :: msg := by
      simp only [List.mem_append, List.mem_cons, not_or]
      exact ⟨h1, by decide, by decide, h3⟩
    have hxr : '}' ∉ name ++ ':' :: '?' :: msg := by
      simp only [List.mem_append, List.mem_cons, not_or]
      exact ⟨h2, by decide, by decide, h4⟩
    have hshape : ("$\x7b").data ++ name ++ (":?").data ++ msg ++ ("\x7d").data =
        '$' :: '{' :: ((name ++ ':' :: '?' :: msg) ++ ['}']) := by
      simp
    rw [hshape]
    unfold expandString
    have hlen : ('$' :: '{' :: ((name ++ ':' :: '?' :: msg) ++ ['}'])).length =
        ((name ++ ':' :: '?' :: msg).length + 2) + 1 := by
      simp
      omega
    rw [hlen]
    rw [expandStringF_braced lookup _ _ hxl hxr]
    rw [expandBraceStep_colon_qmark lookup _ name msg hn h1 h2]
    cases hv : lookup name with
    | none => rfl
    | some v =>
      by_cases hve : v.value = []
      · simp [hve]
      · simp [hve]
  · intro lookup name msg hn1 hn2 hm1 h1 h2 h3 h4
    have hxl : '{' ∉ name ++ '?' :: msg := by
      simp only [List.mem_append, List.mem_cons, not_or]
      exact ⟨h1, by decide, h3⟩
    have hxr : '}' ∉ name ++ '?' :: msg := by
      simp only [List.mem_append, List.mem_cons, not_or]
      exact ⟨h2, by decide, h4⟩
    have hshape : ("$\x7b").data ++ name ++ ("?").data ++ msg ++ ("\x7d").data =
        '$' :: '{' :: ((name ++ '?' :: msg) ++ ['}']) := by
      simp
    rw [hshape]
    unfold expandString
    have hlen : ('$' :: '{' :: ((name ++ '?' :: msg) ++ ['}'])).length =
        ((name ++ '?' :: msg).length + 2) + 1 := by
      simp
      omega
    rw [hlen]
    rw [expandStringF_braced lookup _ _ hxl hxr]
    rw [expandBraceStep_qmark lookup _ name msg hn1 hn2 hm1 h1 h2 h3 h4]
    cases hv : lookup name with
    | none => rfl
    | some v => rfl

theorem required_qmark_operators_witness :
    expandString (("$\x7bUNSET:?\x7d").data) (fun _ => none) =
      .error (("UNSET: required variable is not set").data) ∧
    expandString (("$\x7bE?boom\x7d").data)
      (fun n => if n = ("E").data then
        some (mkVar ("E") ("") ("e") (":1") QuoteStyle.Unquoted []) else none) =
      .ok ([], [(("E").data, (":1").data)]) := by
  constructor
  · have h := required_qmark_operators.1 (fun _ => none) (("UNSET").data) []
      (by decide) (by decide) (by decide) (by decide) (by decide)
    have e1 : ("$\x7b").data ++ ("UNSET").data ++ ((":?").data) ++ ([] : Str)
        ++ ("\x7d").data = ("$\x7bUNSET:?\x7d").data := by decide
    rw [e1] at h
    exact h.trans (by decide)
  · have h := required_qmark_operators.2
      (fun n => if n = ("E").data then
        some (mkVar ("E") ("") ("e") (":1") QuoteStyle.Unquoted []) else none)
      (("E").data) (("boom").data)
      (by decide) (by decide) (by decide) (by decide) (by decide) (by decide) (by decide)
    have e1 : ("$\x7b").data ++ ("E").data ++ (("?").data) ++ (("boom").data)
        ++ ("\x7d").data = ("$\x7bE?boom\x7d").data := by decide
    rw [e1] at h
    exact h.trans (by decide)

theorem operator_nesting_red (lookup : LookupFn) :
    expandString (("$\x7bVAR-$\x7bBAR?BAR is required\x7d\x7d").data) lookup =
      match (match lookup (("VAR").data) with
        | some w => Except.ok (w.value, [(((("VAR").data) : Str), w.location)])
        | none =>
          match (match (match lookup (("BAR").data) with
              | some w => Except.ok (w.value, [(((("BAR").data) : Str), w.location)])
              | none => Except.error (("BAR is required").data)) with
            | Except.error e => Except.error e
            | Except.ok (emit2, m2) => Except.ok (emit2 ++ [], mergeProv m2 [])) with
          | Except.error e => Except.error e
          | Except.ok (s, m) => Except.ok (s, m)) with
      | Except.error e => Except.error e
      | Except.ok (emit, mLocal) => Except.ok (emit ++ [], mergeProv mLocal []) := rfl

/-- Claim C1: on the braced form VAR-nested, where nested is the braced
form BAR?BAR-is-required, a lookup hit on VAR yields that value and the
inner required-operator is never evaluated (the expansion succeeds no
matter what the lookup says about BAR), while a lookup that misses both
names fails with exactly "BAR is required"; and in general an operator
token occurring anywhere inside a nested braced reference is never
recognized by the operator scan of the outer content (third conjunct). -/
theorem operator_nesting :
    (∀ (lookup : LookupFn) (v : Variable), lookup (("VAR").data) = some v →
      expandString (("$\x7bVAR-$\x7bBAR?BAR is required\x7d\x7d").data) lookup =
        .ok (v.value, [(((("VAR").data) : Str), v.location)])) ∧
    (∀ lookup : LookupFn, lookup (("VAR").data) = none → lookup (("BAR").data) = none →
      expandString (("$\x7bVAR-$\x7bBAR?BAR is required\x7d\x7d").data) lookup =
        .error (("BAR is required").data)) ∧
    (∀ (op inner : Str), '{' ∉ inner → '}' ∉ inner →
      findOperator (("$\x7b").data ++ inner ++ ("\x7d").data) op = none) := by
  refine ⟨?_, ?_, ?_⟩
  · intro lookup v hv
    rw [operator_nesting_red, hv]
    simp [mergeProv]
  · intro lookup hv hb
    rw [operator_nesting_red, hv, hb]
  · intro op inner h1 h2
    have hshape : ("$\x7b").data ++ inner ++ ("\x7d").data =
        '$' :: '{' :: (inner ++ ['}']) := by simp
    rw [hshape]
    exact findOperator_nested_none op inner h1 h2

theorem operator_nesting_witness :
    expandString (("$\x7bVAR-$\x7bBAR?BAR is required\x7d\x7d").data)
      (fun n => if n = ("VAR").data then
        some (mkVar ("VAR") ("value") ("value") (":1") QuoteStyle.Unquoted []) else none) =
      .ok ((("value").data), [(((("VAR").data) : Str), ((":1").data))]) ∧
    expandString (("$\x7bVAR-$\x7bBAR?BAR is required\x7d\x7d").data) (fun _ => none) =
      .error (("BAR is required").data) ∧
    findOperator (("$\x7b").data ++ ("BAR?x").data ++ ("\x7d").data) (("?").data) = none := by
  refine ⟨?_, ?_, ?_⟩
  · have h := operator_nesting.1
      (fun n => if n = ("VAR").data then
        some (mkVar ("VAR") ("value") ("value") (":1") QuoteStyle.Unquoted []) else none)
      (mkVar ("VAR") ("value") ("value") (":1") QuoteStyle.Unquoted []) (by decide)
    exact h.trans (by decide)
  · exact operator_nesting.2.1 (fun _ => none) (by decide) (by decide)
  · exact operator_nesting.2.2 (("?").data) (("BAR?x").data) (by decide) (by decide)

end Dotenv
